import Mathlib

/-!
Verification of the session-adapter core of a Qt Tox client
(`src/core.cpp`) against its natural-language specification.

The embedding models:
* the UTF-8 message chunker of `Core::sendMessage` (byte arrays are
  `List Nat`, indices are `Int` exactly as the C++ `int` arithmetic);
* a UTF-8 encoder/decoder used to state the round-trip claims about
  decoded chunks;
* the hex identifier codec of `Core::CData::toString` / `fromString`
  (Qt `QByteArray::toHex` / `fromHex` semantics);
* the edge-triggered connectivity check of `Core::checkConnection`;
* the per-friend event emission of `Core::loadFriends` /
  `Core::checkLastOnline`;
* the user-status mapping of `Core::onUserStatusChanged`.
-/

namespace ToxCore

/-! ## UTF-8 text model

A text is a list of Unicode code points; `Utf8.encode` is the standard
UTF-8 serialization (what `QString::toUtf8` produces for texts of
scalar values), `Utf8.decode` parses a byte list back, failing on any
byte sequence that is not a well-formed UTF-8 stream. -/

namespace Utf8

/-- UTF-8 serialization of one code point (1 to 4 bytes). -/
def encodeChar (c : Nat) : List Nat :=
  if c < 128 then [c]
  else if c < 2048 then [192 + c / 64, 128 + c % 64]
  else if c < 65536 then [224 + c / 4096, 128 + c / 64 % 64, 128 + c % 64]
  else [240 + c / 262144, 128 + c / 4096 % 64, 128 + c / 64 % 64, 128 + c % 64]

/-- UTF-8 serialization of a text. -/
def encode : List Nat → List Nat
  | [] => []
  | c :: cs => encodeChar c ++ encode cs

/-- UTF-8 parser, one byte at a time: `need` is the number of
continuation bytes still expected, `acc` the partial code point built
so far.  A leading byte opens a 1- to 4-byte sequence, every expected
continuation byte must be `10xxxxxx`, and the stream must not end
mid-sequence. -/
def decodeAux : List Nat → Nat → Nat → Option (List Nat)
  | [], need, _ => if need = 0 then some [] else none
  | b :: rest, 0, _ =>
    if b < 128 then (decodeAux rest 0 0).map (fun t => b :: t)
    else if b < 192 then none
    else if b < 224 then decodeAux rest 1 (b - 192)
    else if b < 240 then decodeAux rest 2 (b - 224)
    else if b < 248 then decodeAux rest 3 (b - 240)
    else none
  | b :: rest, 1, acc =>
    if 128 ≤ b ∧ b < 192 then
      (decodeAux rest 0 0).map (fun t => (acc * 64 + (b - 128)) :: t)
    else none
  | b :: rest, need + 2, acc =>
    if 128 ≤ b ∧ b < 192 then decodeAux rest (need + 1) (acc * 64 + (b - 128))
    else none

/-- UTF-8 parser: `none` when the byte list is not a well-formed
stream of 1- to 4-byte sequences (in particular when it starts or ends
inside a multi-byte sequence). -/
def decode (bs : List Nat) : Option (List Nat) :=
  decodeAux bs 0 0

/-- The texts we quantify over: every code point fits in the Unicode
code space, so its UTF-8 serialization is 1 to 4 bytes. -/
def ValidText (cs : List Nat) : Prop := ∀ c ∈ cs, c < 1114112

instance : DecidablePred ValidText := fun cs =>
  inferInstanceAs (Decidable (∀ c ∈ cs, c < 1114112))

end Utf8

/-! ## Message chunker (`Core::sendMessage`)

The C++ walks a UTF-8 byte array with `int` offsets.  `M` stands for
the frame byte limit `TOX_MAX_MESSAGE_LENGTH`.  Index arithmetic is
done in `Int`, exactly as the source: `-1` is the "not found"
sentinel of both backward searches. -/

/-- `byteArray[i]` (all reachable accesses are in bounds; out of
bounds reads default to 0). -/
def byteAt (b : List Nat) (i : Int) : Nat :=
  if 0 ≤ i then b.getD i.toNat 0 else 0

/-- The test `(byte & 0x80) && !(byte & 0x40)`: a UTF-8 continuation
byte (`10xxxxxx`), never a valid cut point. -/
def isContByte (c : Nat) : Bool :=
  (c &&& 128 != 0) && (c &&& 64 == 0)

/-- The loop `for (i = amp; i > amp - 4; i--)`: walk back at most 4
bytes from `amp` to the nearest byte that is not a continuation byte;
`-1` when all four are continuation bytes. -/
def lastCodepointStartAux (b : List Nat) : Nat → Int → Int
  | 0, _ => -1
  | k + 1, i =>
    if isContByte (byteAt b i) then lastCodepointStartAux b k (i - 1) else i

/-- Codepoint-safe candidate cut position searched from
`absoluteMaxPosition`. -/
def lastCodepointStart (b : List Nat) (amp : Int) : Int :=
  lastCodepointStartAux b 4 amp

/-- Membership in `splitOn = " .,-"`. -/
def isSplitChar (c : Nat) : Bool :=
  c == 32 || c == 46 || c == 44 || c == 45

/-- The loop `for (i = lastCodepointStart; i > amp - M/4; i--)`:
skip bytes with the high bit set, return `i + 1` for the first
(highest) preferred break character, `-1` when the window holds none.
The fuel argument is the number of loop iterations. -/
def splitSearchAux (b : List Nat) : Nat → Int → Int
  | 0, _ => -1
  | k + 1, i =>
    if byteAt b i &&& 128 != 0 then splitSearchAux b k (i - 1)
    else if isSplitChar (byteAt b i) then i + 1
    else splitSearchAux b k (i - 1)

/-- One iteration of the splitting loop: the final `splitPosition`
chosen for current offset `off` (the chunk emitted is
`byteArray[off, splitPosition)`). -/
def stepSplit (b : List Nat) (M off : Nat) : Int :=
  let aml : Int := (M : Int) + (off : Int)
  let amp : Int := aml - 1
  let lcs : Int := lastCodepointStart b amp
  let low : Int := amp - ((M / 4 : Nat) : Int)
  let sp : Int := splitSearchAux b (lcs - low).toNat lcs
  if sp ≤ (off : Int) ∨ aml < sp then lcs else sp

/-- The `while (byteArray.size() > absoluteMaxLength)` loop of
`Core::sendMessage`, fuel-indexed: returns the emitted chunks and
`true` when the loop exited (the final send included), `false` when
the fuel ran out before the loop condition turned false. -/
def sendMessageAux (b : List Nat) (M : Nat) : Nat → Nat → List (List Nat) × Bool
  | 0, _ => ([], false)
  | fuel + 1, off =>
    if M + off < b.length then
      let sp := stepSplit b M off
      let chunk := (b.take sp.toNat).drop off
      let r := sendMessageAux b M fuel sp.toNat
      (chunk :: r.1, r.2)
    else
      if off < b.length then ([b.drop off], true) else ([], true)

/-- All chunks `Core::sendMessage` emits for a UTF-8 byte array `b`
under frame limit `M`, with enough fuel for every terminating run
(the loop advances at least one byte per iteration whenever it
terminates at all). -/
def sendMessage (b : List Nat) (M : Nat) : List (List Nat) × Bool :=
  sendMessageAux b M (b.length + 1) 0

/-! ## Identifier codec (`Core::CData`)

Strings are lists of Unicode code points (ASCII in every reachable
use).  `qtToHex`/`qtFromHex` model `QByteArray::toHex` and
`QByteArray::fromHex`: `toHex` yields lowercase digit pairs,
`fromHex` is case-insensitive, skips every non-hex character and
left-pads an odd digit count with a zero nibble. -/

/-- Value of a hexadecimal digit character, `none` for non-hex. -/
def hexVal (c : Nat) : Option Nat :=
  if 48 ≤ c ∧ c ≤ 57 then some (c - 48)
  else if 97 ≤ c ∧ c ≤ 102 then some (c - 87)
  else if 65 ≤ c ∧ c ≤ 70 then some (c - 55)
  else none

/-- Pair a nibble list into bytes. -/
def pairHex : List Nat → List Nat
  | h :: l :: t => (16 * h + l) :: pairHex t
  | _ => []

/-- `QByteArray::fromHex`. -/
def qtFromHex (s : List Nat) : List Nat :=
  let ds := s.filterMap hexVal
  pairHex (if ds.length % 2 = 1 then 0 :: ds else ds)

/-- Lowercase hexadecimal digit of a nibble. -/
def hexDigitLower (n : Nat) : Nat :=
  if n < 10 then 48 + n else 87 + n

/-- `QByteArray::toHex`. -/
def qtToHex : List Nat → List Nat
  | [] => []
  | b :: t => hexDigitLower (b / 16) :: hexDigitLower (b % 16) :: qtToHex t

/-- `QString::toLower` restricted to ASCII (sufficient for hex text). -/
def asciiToLower (s : List Nat) : List Nat :=
  s.map (fun c => if 65 ≤ c ∧ c ≤ 90 then c + 32 else c)

/-- `QString::toUpper` restricted to ASCII. -/
def asciiToUpper (s : List Nat) : List Nat :=
  s.map (fun c => if 97 ≤ c ∧ c ≤ 122 then c - 32 else c)

namespace CData

/-- `Core::CData::toString`: hex-encode then uppercase. -/
def toString (bs : List Nat) : List Nat :=
  asciiToUpper (qtToHex bs)

/-- `Core::CData::fromString`: lowercase then hex-decode; the byte
count actually decoded is the length of the result (the `cDataSize`
the constructor stores). -/
def fromString (s : List Nat) : List Nat :=
  qtFromHex (asciiToLower s)

end CData

/-- `TOX_CLIENT_ID_SIZE`: byte width of a peer id. -/
def TOX_CLIENT_ID_SIZE : Nat := 32

/-! ## Connectivity check (`Core::checkConnection`) -/

inductive ConnEvent where
  | connected
  | disconnected
deriving DecidableEq

/-- One call of `Core::checkConnection`: given the engine's current
connectivity and the remembered `isConnected` bit, the events emitted
and the new bit. -/
def checkConnection (online isConnected : Bool) : List ConnEvent × Bool :=
  if online && !isConnected then ([ConnEvent.connected], true)
  else if !online && isConnected then ([ConnEvent.disconnected], false)
  else ([], isConnected)

/-- Run `checkConnection` over a sequence of per-tick connectivity
samples, threading the `isConnected` bit (initially `false` in the
source: `static bool isConnected = false`). -/
def runConnChecks : List Bool → Bool → List ConnEvent
  | [], _ => []
  | online :: rest, st =>
    (checkConnection online st).1 ++ runConnChecks rest (checkConnection online st).2

/-! ## Friend directory sync (`Core::loadFriends`, `Core::checkLastOnline`) -/

inductive SyncEvent where
  | friendAdded
  | usernameLoaded
  | statusMessageLoaded
  | lastSeenChanged
deriving DecidableEq

/-- The engine's answers for one friend during `loadFriends`. -/
structure FriendSnapshot where
  clientIdOk : Bool
  nameSize : Int
  nameReadSize : Int
  statusMessageSize : Int
  statusReadSize : Int
  lastOnline : Nat

/-- `Core::checkLastOnline`: emit a last-seen event only for a
nonzero `tox_get_last_online` answer. -/
def checkLastOnline (lastOnline : Nat) : List SyncEvent :=
  if 0 < lastOnline then [SyncEvent.lastSeenChanged] else []

/-- Events `Core::loadFriends` emits for one friend, in source
order: added, then name (when `tox_get_name_size` is positive and
`tox_get_name` confirms it), then status message (same pattern), then
the `checkLastOnline` call. -/
def friendSyncEvents (f : FriendSnapshot) : List SyncEvent :=
  if f.clientIdOk then
    [SyncEvent.friendAdded]
      ++ (if 0 < f.nameSize then
            (if f.nameReadSize = f.nameSize then [SyncEvent.usernameLoaded] else [])
          else [])
      ++ (if 0 < f.statusMessageSize then
            (if f.statusReadSize = f.statusMessageSize then [SyncEvent.statusMessageLoaded] else [])
          else [])
      ++ checkLastOnline f.lastOnline
  else []

/-- `Core::loadFriends` over the engine's friend list. -/
def loadFriends : List FriendSnapshot → List SyncEvent
  | [] => []
  | f :: fs => friendSyncEvents f ++ loadFriends fs

/-! ## User-status mapping (`Core::onUserStatusChanged`) -/

inductive Status where
  | Online
  | Offline
  | Away
  | Busy
deriving DecidableEq

/-- `TOX_USERSTATUS_NONE` (external `tox.h` enum, value 0). -/
def TOX_USERSTATUS_NONE : Nat := 0

/-- `TOX_USERSTATUS_AWAY` (external `tox.h` enum, value 1). -/
def TOX_USERSTATUS_AWAY : Nat := 1

/-- `TOX_USERSTATUS_BUSY` (external `tox.h` enum, value 2). -/
def TOX_USERSTATUS_BUSY : Nat := 2

/-- The `switch (userstatus)` of `Core::onUserStatusChanged`: the
presence value carried by the emitted `friendStatusChanged` event. -/
def onUserStatusChanged (userstatus : Nat) : Status :=
  if userstatus = TOX_USERSTATUS_NONE then Status.Online
  else if userstatus = TOX_USERSTATUS_AWAY then Status.Away
  else if userstatus = TOX_USERSTATUS_BUSY then Status.Busy
  else Status.Online

/-- UTF-8 bytes of "The quick brown fox jumps over the lazy dog again"
(the literal example of the spec, 49 ASCII bytes). -/
def foxBytes : List Nat :=
  [84, 104, 101, 32, 113, 117, 105, 99, 107, 32, 98, 114, 111, 119, 110, 32,
   102, 111, 120, 32, 106, 117, 109, 112, 115, 32, 111, 118, 101, 114, 32,
   116, 104, 101, 32, 108, 97, 122, 121, 32, 100, 111, 103, 32, 97, 103, 97,
   105, 110]

end ToxCore

/-! ## Proof development -/

namespace ToxCore

set_option maxRecDepth 4096

/-- The bit test of `isContByte` in arithmetic form, for byte values. -/
theorem isContByte_eq_decide :
    ∀ c < 256, isContByte c = decide (128 ≤ c ∧ c < 192) := by decide

/-- The continuation bytes `128 + x` (`x < 64`) satisfy the bit test. -/
theorem isContByte_cont (x : Nat) (hx : x < 64) : isContByte (128 + x) = true := by
  rw [isContByte_eq_decide (128 + x) (by omega)]
  simp only [decide_eq_true_eq]
  omega

/-- A byte below 128 fails the bit test. -/
theorem isContByte_ascii (c : Nat) (hc : c < 128) : isContByte c = false := by
  rw [isContByte_eq_decide c (by omega)]
  simp only [decide_eq_false_iff_not]
  omega

/-- A byte in `[192, 256)` (a multi-byte leading byte) fails the bit test. -/
theorem isContByte_lead (c : Nat) (h1 : 192 ≤ c) (h2 : c < 256) :
    isContByte c = false := by
  rw [isContByte_eq_decide c h2]
  simp only [decide_eq_false_iff_not]
  omega

namespace Utf8

theorem length_encodeChar_pos (c : Nat) : 0 < (encodeChar c).length := by
  unfold encodeChar
  split <;> [skip; split <;> [skip; split]] <;> simp

theorem length_encodeChar_le (c : Nat) : (encodeChar c).length ≤ 4 := by
  unfold encodeChar
  split <;> [skip; split <;> [skip; split]] <;> simp

theorem encodeChar_of_lt_128 (c : Nat) (h : c < 128) : encodeChar c = [c] := by
  unfold encodeChar
  rw [if_pos h]

theorem encode_append (l r : List Nat) :
    encode (l ++ r) = encode l ++ encode r := by
  induction l with
  | nil => simp [encode]
  | cons c cs ih => simp [encode, ih]

theorem encode_eq_nil_iff (l : List Nat) : encode l = [] ↔ l = [] := by
  cases l with
  | nil => simp [encode]
  | cons c cs =>
    simp only [encode, List.append_eq_nil]
    constructor
    · rintro ⟨h, -⟩
      have := length_encodeChar_pos c
      rw [h] at this
      simp at this
    · intro h
      exact absurd h (List.cons_ne_nil c cs)

/-- The first byte of a code point's serialization is not a
continuation byte. -/
theorem encodeChar_getD_zero_not_cont (c : Nat) (hc : c < 1114112) :
    isContByte ((encodeChar c).getD 0 0) = false := by
  by_cases h1 : c < 128
  · rw [encodeChar_of_lt_128 c h1]
    simpa using isContByte_ascii c h1
  · by_cases h2 : c < 2048
    · simp only [encodeChar, if_neg h1, if_pos h2, List.getD_cons_zero]
      exact isContByte_lead _ (by omega) (by omega)
    · by_cases h3 : c < 65536
      · simp only [encodeChar, if_neg h1, if_neg h2, if_pos h3, List.getD_cons_zero]
        exact isContByte_lead _ (by omega) (by omega)
      · simp only [encodeChar, if_neg h1, if_neg h2, if_neg h3, List.getD_cons_zero]
        exact isContByte_lead _ (by omega) (by omega)

/-- Every byte of a serialization after the first is a continuation
byte. -/
theorem encodeChar_getD_cont (c p : Nat) (hp1 : 1 ≤ p)
    (hp : p < (encodeChar c).length) :
    isContByte ((encodeChar c).getD p 0) = true := by
  by_cases h1 : c < 128
  · rw [encodeChar_of_lt_128 c h1] at hp
    simp at hp
    omega
  · by_cases h2 : c < 2048
    · simp only [encodeChar, if_neg h1, if_pos h2, List.length_cons,
        List.length_nil] at hp ⊢
      obtain rfl : p = 1 := by omega
      simp only [List.getD_cons_succ, List.getD_cons_zero]
      exact isContByte_cont _ (Nat.mod_lt _ (by omega))
    · by_cases h3 : c < 65536
      · simp only [encodeChar, if_neg h1, if_neg h2, if_pos h3, List.length_cons,
          List.length_nil] at hp ⊢
        interval_cases p <;>
          simp only [List.getD_cons_succ, List.getD_cons_zero] <;>
          exact isContByte_cont _ (Nat.mod_lt _ (by omega))
      · simp only [encodeChar, if_neg h1, if_neg h2, if_neg h3, List.length_cons,
          List.length_nil] at hp ⊢
        interval_cases p <;>
          simp only [List.getD_cons_succ, List.getD_cons_zero] <;>
          exact isContByte_cont _ (Nat.mod_lt _ (by omega))

/-- All bytes of a multi-byte serialization have the high bit set. -/
theorem encodeChar_getD_ge_128 (c p : Nat) (h128 : 128 ≤ c)
    (hp : p < (encodeChar c).length) :
    128 ≤ (encodeChar c).getD p 0 := by
  by_cases h2 : c < 2048
  · simp only [encodeChar, if_neg (by omega : ¬ c < 128), if_pos h2,
      List.length_cons, List.length_nil] at hp ⊢
    interval_cases p <;>
      simp only [List.getD_cons_succ, List.getD_cons_zero] <;> omega
  · by_cases h3 : c < 65536
    · simp only [encodeChar, if_neg (by omega : ¬ c < 128), if_neg h2, if_pos h3,
        List.length_cons, List.length_nil] at hp ⊢
      interval_cases p <;>
        simp only [List.getD_cons_succ, List.getD_cons_zero] <;> omega
    · simp only [encodeChar, if_neg (by omega : ¬ c < 128), if_neg h2, if_neg h3,
        List.length_cons, List.length_nil] at hp ⊢
      interval_cases p <;>
        simp only [List.getD_cons_succ, List.getD_cons_zero] <;> omega

theorem encode_cons (c : Nat) (cs : List Nat) :
    encode (c :: cs) = encodeChar c ++ encode cs := rfl

theorem length_encode_cons (c : Nat) (cs : List Nat) :
    (encode (c :: cs)).length = (encodeChar c).length + (encode cs).length := by
  rw [encode_cons, List.length_append]

/-- A byte of `encode cs` that is not a continuation byte sits on a
code-point boundary. -/
theorem boundary_of_not_cont (cs : List Nat) (hv : ValidText cs) :
    ∀ p, p < (encode cs).length → isContByte ((encode cs).getD p 0) = false →
    ∃ l r, cs = l ++ r ∧ (encode l).length = p := by
  induction cs with
  | nil => intro p hp; simp [encode] at hp
  | cons c cs ih =>
    intro p hp hnc
    have hv' : ValidText cs := fun x hx => hv x (List.mem_cons_of_mem c hx)
    by_cases hlt : p < (encodeChar c).length
    · rcases Nat.eq_zero_or_pos p with rfl | hpos
      · exact ⟨[], c :: cs, rfl, rfl⟩
      · have heq : (encode (c :: cs)).getD p 0 = (encodeChar c).getD p 0 := by
          rw [encode_cons]
          exact List.getD_append _ _ _ _ hlt
        rw [heq, encodeChar_getD_cont c p hpos hlt] at hnc
        exact absurd hnc (by simp)
    · have hge : (encodeChar c).length ≤ p := le_of_not_lt hlt
      have hp' : p - (encodeChar c).length < (encode cs).length := by
        rw [length_encode_cons] at hp
        omega
      have heq : (encode (c :: cs)).getD p 0
          = (encode cs).getD (p - (encodeChar c).length) 0 := by
        rw [encode_cons]
        exact List.getD_append_right _ _ _ _ hge
      rw [heq] at hnc
      obtain ⟨l, r, rfl, hl⟩ := ih hv' _ hp' hnc
      refine ⟨c :: l, r, rfl, ?_⟩
      rw [length_encode_cons, hl]
      omega

/-- The position right after a byte below 128 is a code-point
boundary. -/
theorem boundary_succ_of_ascii (cs : List Nat) (hv : ValidText cs) :
    ∀ p, p < (encode cs).length → (encode cs).getD p 0 < 128 →
    ∃ l r, cs = l ++ r ∧ (encode l).length = p + 1 := by
  induction cs with
  | nil => intro p hp; simp [encode] at hp
  | cons c cs ih =>
    intro p hp hb
    have hv' : ValidText cs := fun x hx => hv x (List.mem_cons_of_mem c hx)
    by_cases hlt : p < (encodeChar c).length
    · by_cases hc128 : c < 128
      · rw [encodeChar_of_lt_128 c hc128] at hlt
        obtain rfl : p = 0 := by simpa using hlt
        refine ⟨[c], cs, rfl, ?_⟩
        rw [encode_cons, List.length_append, encodeChar_of_lt_128 c hc128]
        rfl
      · have hge := encodeChar_getD_ge_128 c p (by omega) hlt
        have heq : (encode (c :: cs)).getD p 0 = (encodeChar c).getD p 0 := by
          rw [encode_cons]
          exact List.getD_append _ _ _ _ hlt
        rw [heq] at hb
        omega
    · have hge : (encodeChar c).length ≤ p := le_of_not_lt hlt
      have hp' : p - (encodeChar c).length < (encode cs).length := by
        rw [length_encode_cons] at hp
        omega
      have heq : (encode (c :: cs)).getD p 0
          = (encode cs).getD (p - (encodeChar c).length) 0 := by
        rw [encode_cons]
        exact List.getD_append_right _ _ _ _ hge
      rw [heq] at hb
      obtain ⟨l, r, rfl, hl⟩ := ih hv' _ hp' hb
      refine ⟨c :: l, r, rfl, ?_⟩
      rw [length_encode_cons, hl]
      omega

/-- Any byte position of `encode cs` is at most 3 bytes after a
non-continuation byte (code points serialize to at most 4 bytes). -/
theorem window_not_cont (cs : List Nat) (hv : ValidText cs) :
    ∀ p, p < (encode cs).length →
    ∃ q, q ≤ p ∧ p ≤ q + 3 ∧ isContByte ((encode cs).getD q 0) = false := by
  induction cs with
  | nil => intro p hp; simp [encode] at hp
  | cons c cs ih =>
    intro p hp
    have hc : c < 1114112 := hv c (List.mem_cons_self c cs)
    have hv' : ValidText cs := fun x hx => hv x (List.mem_cons_of_mem c hx)
    by_cases hlt : p < (encodeChar c).length
    · refine ⟨0, Nat.zero_le p, ?_, ?_⟩
      · have := length_encodeChar_le c
        omega
      · have heq : (encode (c :: cs)).getD 0 0 = (encodeChar c).getD 0 0 := by
          rw [encode_cons]
          exact List.getD_append _ _ _ _ (length_encodeChar_pos c)
        rw [heq]
        exact encodeChar_getD_zero_not_cont c hc
    · have hge : (encodeChar c).length ≤ p := le_of_not_lt hlt
      have hp' : p - (encodeChar c).length < (encode cs).length := by
        rw [length_encode_cons] at hp
        omega
      obtain ⟨q, hq1, hq2, hq3⟩ := ih hv' _ hp'
      refine ⟨q + (encodeChar c).length, by omega, by omega, ?_⟩
      have heq : (encode (c :: cs)).getD (q + (encodeChar c).length) 0
          = (encode cs).getD q 0 := by
        rw [encode_cons]
        rw [List.getD_append_right _ _ _ _ (by omega)]
        congr 1
        omega
      rw [heq]
      exact hq3

/-- Two boundary decompositions of the same text are nested. -/
theorem boundary_prefix (l1 r1 l2 r2 : List Nat) (h : l1 ++ r1 = l2 ++ r2)
    (hle : (encode l1).length ≤ (encode l2).length) :
    ∃ m, l2 = l1 ++ m ∧ r1 = m ++ r2 := by
  rcases List.append_eq_append_iff.mp h with ⟨m, hm1, hm2⟩ | ⟨m, hm1, hm2⟩
  · exact ⟨m, hm1, hm2⟩
  · obtain rfl : m = [] := by
      subst hm1
      rw [encode_append, List.length_append] at hle
      have := (encode_eq_nil_iff m).mp
      cases m with
      | nil => rfl
      | cons x xs =>
        exfalso
        have h1 : 0 < (encode (x :: xs)).length := by
          rw [length_encode_cons]
          have := length_encodeChar_pos x
          omega
        omega
    subst hm1
    refine ⟨[], by simp, ?_⟩
    simp only [List.nil_append] at hm2 ⊢
    exact hm2.symm

/-- The byte slice between two adjacent boundaries is the
serialization of the code points between them. -/
theorem slice_encode (l m r : List Nat) :
    ((encode (l ++ m ++ r)).take ((encode l).length + (encode m).length)).drop
        (encode l).length = encode m := by
  rw [encode_append, encode_append]
  rw [List.append_assoc]
  rw [List.take_append ((encode m).length)]
  rw [List.drop_left]
  rw [List.take_left]

/-- Stepping rule of the parser: leading ASCII byte. -/
theorem decodeAux_ascii (b : Nat) (rest : List Nat) (h : b < 128) :
    decodeAux (b :: rest) 0 0 = (decodeAux rest 0 0).map (fun t => b :: t) := by
  simp only [decodeAux]
  rw [if_pos h]

/-- Stepping rule of the parser: 2-byte leading byte. -/
theorem decodeAux_lead2 (b : Nat) (rest : List Nat) (h1 : 192 ≤ b) (h2 : b < 224) :
    decodeAux (b :: rest) 0 0 = decodeAux rest 1 (b - 192) := by
  simp only [decodeAux]
  rw [if_neg (by omega), if_neg (by omega), if_pos h2]

/-- Stepping rule of the parser: 3-byte leading byte. -/
theorem decodeAux_lead3 (b : Nat) (rest : List Nat) (h1 : 224 ≤ b) (h2 : b < 240) :
    decodeAux (b :: rest) 0 0 = decodeAux rest 2 (b - 224) := by
  simp only [decodeAux]
  rw [if_neg (by omega), if_neg (by omega), if_neg (by omega), if_pos h2]

/-- Stepping rule of the parser: 4-byte leading byte. -/
theorem decodeAux_lead4 (b : Nat) (rest : List Nat) (h1 : 240 ≤ b) (h2 : b < 248) :
    decodeAux (b :: rest) 0 0 = decodeAux rest 3 (b - 240) := by
  simp only [decodeAux]
  rw [if_neg (by omega), if_neg (by omega), if_neg (by omega), if_neg (by omega),
    if_pos h2]

/-- Stepping rule of the parser: final continuation byte. -/
theorem decodeAux_cont1 (b : Nat) (rest : List Nat) (acc : Nat)
    (h1 : 128 ≤ b) (h2 : b < 192) :
    decodeAux (b :: rest) 1 acc
      = (decodeAux rest 0 0).map (fun t => (acc * 64 + (b - 128)) :: t) := by
  simp only [decodeAux]
  rw [if_pos ⟨h1, h2⟩]

/-- Stepping rule of the parser: non-final continuation byte. -/
theorem decodeAux_cont (b : Nat) (rest : List Nat) (need acc : Nat)
    (h1 : 128 ≤ b) (h2 : b < 192) :
    decodeAux (b :: rest) (need + 2) acc
      = decodeAux rest (need + 1) (acc * 64 + (b - 128)) := by
  simp only [decodeAux]
  rw [if_pos ⟨h1, h2⟩]

/-- Decoding peels one serialized code point at a time. -/
theorem decode_encodeChar_append (c : Nat) (hc : c < 1114112) (rest : List Nat) :
    decode (encodeChar c ++ rest) = (decode rest).map (fun t => c :: t) := by
  by_cases h1 : c < 128
  · rw [encodeChar_of_lt_128 c h1]
    show decodeAux (c :: rest) 0 0 = _
    rw [decodeAux_ascii c rest h1]
    rfl
  · by_cases h2 : c < 2048
    · have hsh : encodeChar c ++ rest = (192 + c / 64) :: (128 + c % 64) :: rest := by
        simp [encodeChar, if_neg h1, if_pos h2]
      rw [hsh]
      show decodeAux _ 0 0 = _
      rw [decodeAux_lead2 _ _ (by omega) (by omega),
        decodeAux_cont1 _ _ _ (by omega) (by omega)]
      have hval : (192 + c / 64 - 192) * 64 + (128 + c % 64 - 128) = c := by omega
      simp only [hval]
      rfl
    · by_cases h3 : c < 65536
      · have hsh : encodeChar c ++ rest
            = (224 + c / 4096) :: (128 + c / 64 % 64) :: (128 + c % 64) :: rest := by
          simp [encodeChar, if_neg h1, if_neg h2, if_pos h3]
        rw [hsh]
        show decodeAux _ 0 0 = _
        rw [decodeAux_lead3 _ _ (by omega) (by omega)]
        rw [show (2 : Nat) = 0 + 2 from rfl,
          decodeAux_cont _ _ _ _ (by omega) (by omega),
          decodeAux_cont1 _ _ _ (by omega) (by omega)]
        have hval : ((224 + c / 4096 - 224) * 64 + (128 + c / 64 % 64 - 128)) * 64
            + (128 + c % 64 - 128) = c := by omega
        simp only [hval]
        rfl
      · have hsh : encodeChar c ++ rest
            = (240 + c / 262144) :: (128 + c / 4096 % 64) :: (128 + c / 64 % 64)
              :: (128 + c % 64) :: rest := by
          simp [encodeChar, if_neg h1, if_neg h2, if_neg h3]
        rw [hsh]
        show decodeAux _ 0 0 = _
        rw [decodeAux_lead4 _ _ (by omega) (by omega)]
        rw [show (3 : Nat) = 1 + 2 from rfl,
          decodeAux_cont _ _ _ _ (by omega) (by omega)]
        rw [show (1 + 1 : Nat) = 0 + 2 from rfl,
          decodeAux_cont _ _ _ _ (by omega) (by omega),
          decodeAux_cont1 _ _ _ (by omega) (by omega)]
        have hval : (((240 + c / 262144 - 240) * 64 + (128 + c / 4096 % 64 - 128)) * 64
            + (128 + c / 64 % 64 - 128)) * 64 + (128 + c % 64 - 128) = c := by omega
        simp only [hval]
        rfl

/-- UTF-8 round trip: decoding a serialized text yields it back. -/
theorem decode_encode (cs : List Nat) (hv : ValidText cs) :
    decode (encode cs) = some cs := by
  induction cs with
  | nil => rfl
  | cons c cs ih =>
    rw [encode_cons, decode_encodeChar_append c (hv c (List.mem_cons_self c cs)),
      ih (fun x hx => hv x (List.mem_cons_of_mem c hx))]
    rfl

/-- Decoding a list of serialized texts yields them all back. -/
theorem mapM_decode_map_encode (css : List (List Nat))
    (h : ∀ m ∈ css, ValidText m) :
    List.mapM decode (css.map encode) = some css := by
  induction css with
  | nil => rfl
  | cons m ms ih =>
    rw [List.map_cons, List.mapM_cons,
      decode_encode m (h m (List.mem_cons_self m ms)),
      ih (fun x hx => h x (List.mem_cons_of_mem m hx))]
    rfl

end Utf8

/-- `byteAt` at a natural index is `getD`. -/
theorem byteAt_natCast (b : List Nat) (p : Nat) :
    byteAt b (p : Int) = b.getD p 0 := by
  simp [byteAt]

/-- A preferred break character is ASCII and fails the high-bit
test. -/
theorem isSplitChar_lt_128 (c : Nat) (h : isSplitChar c = true) :
    c < 128 ∧ c &&& 128 = 0 := by
  simp only [isSplitChar, Bool.or_eq_true, beq_iff_eq] at h
  rcases h with ((rfl | rfl) | rfl) | rfl <;> exact ⟨by omega, by decide⟩

/-- If a non-continuation byte sits in the last `k` positions up to
`i`, the backward search returns the highest such position. -/
theorem lastCodepointStartAux_le (b : List Nat) :
    ∀ (k : Nat) (i q : Int), 0 ≤ q → i - k < q → q ≤ i →
    isContByte (byteAt b q) = false →
    ∃ l : Int, lastCodepointStartAux b k i = l ∧ q ≤ l ∧ l ≤ i ∧
      isContByte (byteAt b l) = false := by
  intro k
  induction k with
  | zero =>
    intro i q h0 hlo hhi hq
    exfalso
    omega
  | succ k ih =>
    intro i q h0 hlo hhi hq
    by_cases hci : isContByte (byteAt b i) = true
    · have hqi : q ≠ i := by
        intro h
        rw [h, hci] at hq
        exact absurd hq (by simp)
      obtain ⟨l, hl, h1, h2, h3⟩ := ih (i - 1) q h0 (by omega) (by omega) hq
      refine ⟨l, ?_, h1, by omega, h3⟩
      simp only [lastCodepointStartAux, if_pos hci]
      exact hl
    · have hci' : isContByte (byteAt b i) = false := by
        simpa using hci
      exact ⟨i, by simp only [lastCodepointStartAux, if_neg hci], hhi, le_refl i, hci'⟩

/-- The backward codepoint search either fails with `-1` or lands on
a non-continuation byte within its window. -/
theorem lastCodepointStartAux_cases (b : List Nat) :
    ∀ (k : Nat) (i : Int), lastCodepointStartAux b k i = -1 ∨
      (i - k < lastCodepointStartAux b k i ∧ lastCodepointStartAux b k i ≤ i ∧
        isContByte (byteAt b (lastCodepointStartAux b k i)) = false) := by
  intro k
  induction k with
  | zero => intro i; left; rfl
  | succ k ih =>
    intro i
    by_cases hci : isContByte (byteAt b i) = true
    · rcases ih (i - 1) with h | ⟨h1, h2, h3⟩
      · left
        simp only [lastCodepointStartAux, if_pos hci]
        exact h
      · right
        simp only [lastCodepointStartAux, if_pos hci]
        exact ⟨by omega, by omega, h3⟩
    · right
      simp only [lastCodepointStartAux, if_neg hci]
      exact ⟨by omega, le_refl i, by simpa using hci⟩

/-- The break-character search either fails with `-1` or returns one
past a break character inside its window. -/
theorem splitSearchAux_cases (b : List Nat) :
    ∀ (k : Nat) (i : Int), splitSearchAux b k i = -1 ∨
      ∃ j : Int, splitSearchAux b k i = j + 1 ∧ i - k < j ∧ j ≤ i ∧
        isSplitChar (byteAt b j) = true := by
  intro k
  induction k with
  | zero => intro i; left; rfl
  | succ k ih =>
    intro i
    by_cases hhi : (byteAt b i &&& 128 != 0) = true
    · rcases ih (i - 1) with h | ⟨j, h1, h2, h3, h4⟩
      · left
        simp only [splitSearchAux, if_pos hhi]
        exact h
      · right
        refine ⟨j, ?_, by omega, by omega, h4⟩
        simp only [splitSearchAux, if_pos hhi]
        exact h1
    · by_cases hsc : isSplitChar (byteAt b i) = true
      · right
        refine ⟨i, ?_, by omega, le_refl i, hsc⟩
        simp only [splitSearchAux, if_neg hhi, if_pos hsc]
      · rcases ih (i - 1) with h | ⟨j, h1, h2, h3, h4⟩
        · left
          simp only [splitSearchAux, if_neg hhi, if_neg hsc]
          exact h
        · right
          refine ⟨j, ?_, by omega, by omega, h4⟩
          simp only [splitSearchAux, if_neg hhi, if_neg hsc]
          exact h1

/-- If a break character sits in the search window, the search finds
one (the highest). -/
theorem splitSearchAux_found (b : List Nat) :
    ∀ (k : Nat) (i j : Int), i - k < j → j ≤ i → isSplitChar (byteAt b j) = true →
    ∃ j' : Int, splitSearchAux b k i = j' + 1 ∧ j ≤ j' ∧ j' ≤ i ∧
      isSplitChar (byteAt b j') = true := by
  intro k
  induction k with
  | zero =>
    intro i j hlo hhi hj
    exfalso
    omega
  | succ k ih =>
    intro i j hlo hhi hj
    by_cases hhi128 : (byteAt b i &&& 128 != 0) = true
    · have hji : j ≠ i := by
        intro h
        obtain ⟨-, hand⟩ := isSplitChar_lt_128 _ hj
        rw [h] at hand
        simp [hand] at hhi128
      obtain ⟨j', h1, h2, h3, h4⟩ := ih (i - 1) j (by omega) (by omega) hj
      refine ⟨j', ?_, h2, by omega, h4⟩
      simp only [splitSearchAux, if_pos hhi128]
      exact h1
    · by_cases hsc : isSplitChar (byteAt b i) = true
      · refine ⟨i, ?_, hhi, le_refl i, hsc⟩
        simp only [splitSearchAux, if_neg hhi128, if_pos hsc]
      · have hji : j ≠ i := by
          intro h
          rw [h] at hj
          exact hsc hj
        obtain ⟨j', h1, h2, h3, h4⟩ := ih (i - 1) j (by omega) (by omega) hj
        refine ⟨j', ?_, h2, by omega, h4⟩
        simp only [splitSearchAux, if_neg hhi128, if_neg hsc]
        exact h1

/-- One iteration of the splitting loop, on a valid UTF-8 byte
array: the chosen `splitPosition` is a code-point boundary at most
`M` bytes past the offset, and strictly past it when `M ≥ 5`. -/
theorem stepSplit_spec (M : Nat) (hM : 4 ≤ M) (l r : List Nat)
    (hv : Utf8.ValidText (l ++ r)) (hlen : M < (Utf8.encode r).length) :
    ∃ m r' : List Nat, r = m ++ r' ∧
      stepSplit (Utf8.encode (l ++ r)) M (Utf8.encode l).length
        = ((Utf8.encode l).length : Int) + ((Utf8.encode m).length : Int) ∧
      (Utf8.encode m).length ≤ M ∧ (5 ≤ M → m ≠ []) := by
  have hblen : (Utf8.encode (l ++ r)).length
      = (Utf8.encode l).length + (Utf8.encode r).length := by
    rw [Utf8.encode_append, List.length_append]
  have hmain : ∃ ρ : Nat,
      stepSplit (Utf8.encode (l ++ r)) M (Utf8.encode l).length = (ρ : Int)
      ∧ (∃ l2 r2, l ++ r = l2 ++ r2 ∧ (Utf8.encode l2).length = ρ)
      ∧ (Utf8.encode l).length ≤ ρ ∧ ρ ≤ (Utf8.encode l).length + M
      ∧ (5 ≤ M → (Utf8.encode l).length < ρ) := by
    obtain ⟨q, hq1, hq2, hq3⟩ :=
      Utf8.window_not_cont (l ++ r) hv ((Utf8.encode l).length + M - 1) (by omega)
    obtain ⟨lv, hlv, hlv1, hlv2, hlv3⟩ :=
      lastCodepointStartAux_le (Utf8.encode (l ++ r)) 4
        ((M : Int) + ((Utf8.encode l).length : Int) - 1) (q : Int)
        (Int.natCast_nonneg q) (by omega) (by omega)
        (by rw [byteAt_natCast]; exact hq3)
    have hlv0 : (0 : Int) ≤ lv := le_trans (Int.natCast_nonneg q) hlv1
    have hlveq : lv = (lv.toNat : Int) := (Int.toNat_of_nonneg hlv0).symm
    have hlvNlt : lv.toNat < (Utf8.encode (l ++ r)).length := by omega
    obtain ⟨l2, r2, hsplit2, hlen2⟩ :=
      Utf8.boundary_of_not_cont (l ++ r) hv lv.toNat hlvNlt
        (by rw [← byteAt_natCast, ← hlveq]; exact hlv3)
    simp only [stepSplit, lastCodepointStart]
    rw [hlv]
    rcases splitSearchAux_cases (Utf8.encode (l ++ r))
        (lv - ((M : Int) + ((Utf8.encode l).length : Int) - 1
          - ((M / 4 : Nat) : Int))).toNat lv with hsp | ⟨j, hsp, hj1, hj2, hj3⟩
    · rw [hsp, if_pos (Or.inl (by omega))]
      exact ⟨lv.toNat, hlveq, ⟨l2, r2, hsplit2, hlen2⟩, by omega, by omega, by omega⟩
    · rw [hsp]
      by_cases hcond : j + 1 ≤ ((Utf8.encode l).length : Int)
          ∨ (M : Int) + ((Utf8.encode l).length : Int) < j + 1
      · rw [if_pos hcond]
        exact ⟨lv.toNat, hlveq, ⟨l2, r2, hsplit2, hlen2⟩, by omega, by omega, by omega⟩
      · rw [if_neg hcond]
        push_neg at hcond
        have hj0 : (0 : Int) ≤ j := by omega
        have hjeq : j = (j.toNat : Int) := (Int.toNat_of_nonneg hj0).symm
        have hjNlt : j.toNat < (Utf8.encode (l ++ r)).length := by omega
        have hjascii : (Utf8.encode (l ++ r)).getD j.toNat 0 < 128 := by
          have := (isSplitChar_lt_128 _ hj3).1
          rwa [hjeq, byteAt_natCast] at this
        obtain ⟨l3, r3, hsplit3, hlen3⟩ :=
          Utf8.boundary_succ_of_ascii (l ++ r) hv j.toNat hjNlt hjascii
        exact ⟨j.toNat + 1, by omega, ⟨l3, r3, hsplit3, hlen3⟩, by omega, by omega,
          by omega⟩
  obtain ⟨ρ, hρeq, ⟨l2, r2, hsplit2, hlen2⟩, hρ1, hρ2, hρ3⟩ := hmain
  obtain ⟨m, hm1, hm2⟩ := Utf8.boundary_prefix l r l2 r2 hsplit2
    (by rw [hlen2]; exact hρ1)
  have hlm : (Utf8.encode l2).length
      = (Utf8.encode l).length + (Utf8.encode m).length := by
    rw [hm1, Utf8.encode_append, List.length_append]
  refine ⟨m, r2, hm2, ?_, by omega, ?_⟩
  · rw [hρeq]
    omega
  · intro h5 hmnil
    have hlt := hρ3 h5
    rw [hmnil] at hlm
    simp only [Utf8.encode, List.length_nil] at hlm
    omega

/-- The splitting loop with enough fuel, `M ≥ 5`: it terminates, its
chunks are the serializations of a partition of the remaining text,
and every chunk fits in `M` bytes. -/
theorem sendMessageAux_spec (M : Nat) (hM : 5 ≤ M) :
    ∀ (fuel : Nat) (l r : List Nat), Utf8.ValidText (l ++ r) →
    (Utf8.encode r).length < fuel →
    ∃ css : List (List Nat),
      sendMessageAux (Utf8.encode (l ++ r)) M fuel (Utf8.encode l).length
          = (css.map Utf8.encode, true)
      ∧ css.flatten = r ∧ ∀ ch ∈ css, (Utf8.encode ch).length ≤ M := by
  intro fuel
  induction fuel with
  | zero =>
    intro l r hv hfuel
    exact absurd hfuel (by omega)
  | succ fuel ih =>
    intro l r hv hfuel
    have hblen : (Utf8.encode (l ++ r)).length
        = (Utf8.encode l).length + (Utf8.encode r).length := by
      rw [Utf8.encode_append, List.length_append]
    by_cases hloop : M + (Utf8.encode l).length < (Utf8.encode (l ++ r)).length
    · have hlen : M < (Utf8.encode r).length := by omega
      obtain ⟨m, r', hm, hstep, hmle, hmne⟩ :=
        stepSplit_spec M (by omega) l r hv hlen
      have hmne' : m ≠ [] := hmne hM
      have hemlen : 1 ≤ (Utf8.encode m).length := by
        rcases Nat.eq_zero_or_pos (Utf8.encode m).length with h0 | h1
        · exact absurd ((Utf8.encode_eq_nil_iff m).mp (List.length_eq_zero.mp h0)) hmne'
        · exact h1
      have htoNat : (stepSplit (Utf8.encode (l ++ r)) M (Utf8.encode l).length).toNat
          = (Utf8.encode l).length + (Utf8.encode m).length := by
        rw [hstep]
        omega
      have hrlen : (Utf8.encode r).length
          = (Utf8.encode m).length + (Utf8.encode r').length := by
        rw [hm, Utf8.encode_append, List.length_append]
      have hvassoc : Utf8.ValidText ((l ++ m) ++ r') := by
        rw [List.append_assoc, ← hm]
        exact hv
      obtain ⟨css, hcss1, hcss2, hcss3⟩ := ih (l ++ m) r' hvassoc (by omega)
      have hlm : (Utf8.encode (l ++ m)).length
          = (Utf8.encode l).length + (Utf8.encode m).length := by
        rw [Utf8.encode_append, List.length_append]
      have hchunk : ((Utf8.encode (l ++ r)).take
            (stepSplit (Utf8.encode (l ++ r)) M (Utf8.encode l).length).toNat).drop
            (Utf8.encode l).length = Utf8.encode m := by
        rw [htoNat, hm, ← List.append_assoc]
        exact Utf8.slice_encode l m r'
      refine ⟨m :: css, ?_, ?_, ?_⟩
      · simp only [sendMessageAux]
        rw [if_pos hloop]
        have harg : sendMessageAux (Utf8.encode (l ++ r)) M fuel
              (stepSplit (Utf8.encode (l ++ r)) M (Utf8.encode l).length).toNat
            = (css.map Utf8.encode, true) := by
          rw [htoNat, ← hlm, hm, ← List.append_assoc]
          exact hcss1
        rw [hchunk, harg]
        rfl
      · rw [List.flatten_cons, hcss2]
        exact hm.symm
      · intro ch hch
        rcases List.mem_cons.mp hch with rfl | hch'
        · exact hmle
        · exact hcss3 ch hch'
    · simp only [sendMessageAux]
      rw [if_neg hloop]
      by_cases hr : r = []
      · subst hr
        rw [if_neg (by simp only [List.append_nil] at hblen ⊢; omega)]
        exact ⟨[], rfl, rfl, by intro ch hch; simp at hch⟩
      · have hrpos : 0 < (Utf8.encode r).length := by
          rcases Nat.eq_zero_or_pos (Utf8.encode r).length with h0 | h1
          · exact absurd ((Utf8.encode_eq_nil_iff r).mp (List.length_eq_zero.mp h0)) hr
          · exact h1
        rw [if_pos (by omega)]
        refine ⟨[r], ?_, by simp, ?_⟩
        · rw [Utf8.encode_append, List.drop_left]
          rfl
        · intro ch hch
          rcases List.mem_cons.mp hch with rfl | hch'
          · omega
          · simp at hch'

/-- Every chunk the splitting loop emits — with any fuel, even on
runs that would not terminate, and already for `M ≥ 4` — is the
serialization of a valid sub-text and fits in `M` bytes. -/
theorem sendMessageAux_chunks (M : Nat) (hM : 4 ≤ M) :
    ∀ (fuel : Nat) (l r : List Nat), Utf8.ValidText (l ++ r) →
    ∀ ch ∈ (sendMessageAux (Utf8.encode (l ++ r)) M fuel (Utf8.encode l).length).1,
      (∃ mm, ch = Utf8.encode mm ∧ Utf8.ValidText mm) ∧ ch.length ≤ M := by
  intro fuel
  induction fuel with
  | zero =>
    intro l r hv ch hch
    simp [sendMessageAux] at hch
  | succ fuel ih =>
    intro l r hv ch hch
    have hblen : (Utf8.encode (l ++ r)).length
        = (Utf8.encode l).length + (Utf8.encode r).length := by
      rw [Utf8.encode_append, List.length_append]
    by_cases hloop : M + (Utf8.encode l).length < (Utf8.encode (l ++ r)).length
    · have hlen : M < (Utf8.encode r).length := by omega
      obtain ⟨m, r', hm, hstep, hmle, -⟩ := stepSplit_spec M hM l r hv hlen
      have htoNat : (stepSplit (Utf8.encode (l ++ r)) M (Utf8.encode l).length).toNat
          = (Utf8.encode l).length + (Utf8.encode m).length := by
        rw [hstep]
        omega
      have hlm : (Utf8.encode (l ++ m)).length
          = (Utf8.encode l).length + (Utf8.encode m).length := by
        rw [Utf8.encode_append, List.length_append]
      have hvassoc : Utf8.ValidText ((l ++ m) ++ r') := by
        rw [List.append_assoc, ← hm]
        exact hv
      have hchunk : ((Utf8.encode (l ++ r)).take
            (stepSplit (Utf8.encode (l ++ r)) M (Utf8.encode l).length).toNat).drop
            (Utf8.encode l).length = Utf8.encode m := by
        rw [htoNat, hm, ← List.append_assoc]
        exact Utf8.slice_encode l m r'
      simp only [sendMessageAux] at hch
      rw [if_pos hloop] at hch
      rw [hchunk] at hch
      rcases List.mem_cons.mp hch with rfl | hch'
      · refine ⟨⟨m, rfl, ?_⟩, hmle⟩
        intro x hx
        exact hv x (by rw [hm, ← List.append_assoc]; exact List.mem_append_left r' (List.mem_append_right l hx))
      · have harg : sendMessageAux (Utf8.encode (l ++ r)) M fuel
              (stepSplit (Utf8.encode (l ++ r)) M (Utf8.encode l).length).toNat
            = sendMessageAux (Utf8.encode ((l ++ m) ++ r')) M fuel
              (Utf8.encode (l ++ m)).length := by
          rw [htoNat, ← hlm, hm, ← List.append_assoc]
        rw [harg] at hch'
        exact ih (l ++ m) r' hvassoc ch hch'
    · simp only [sendMessageAux] at hch
      rw [if_neg hloop] at hch
      by_cases hoff : (Utf8.encode l).length < (Utf8.encode (l ++ r)).length
      · rw [if_pos hoff] at hch
        have hdrop : (Utf8.encode (l ++ r)).drop (Utf8.encode l).length
            = Utf8.encode r := by
          rw [Utf8.encode_append, List.drop_left]
        rw [hdrop] at hch
        rcases List.mem_cons.mp hch with rfl | hch'
        · refine ⟨⟨r, rfl, fun x hx => hv x (List.mem_append_right l hx)⟩, by omega⟩
        · simp at hch'
      · rw [if_neg hoff] at hch
        simp at hch

/-- Lowercase hex digits are decimal digits or `a`-`f`. -/
theorem hexDigitLower_range (n : Nat) (hn : n < 16) :
    (48 ≤ hexDigitLower n ∧ hexDigitLower n ≤ 57)
      ∨ (97 ≤ hexDigitLower n ∧ hexDigitLower n ≤ 102) := by
  simp only [hexDigitLower]
  split_ifs <;> omega

/-- `hexVal` inverts `hexDigitLower`. -/
theorem hexVal_hexDigitLower (n : Nat) (hn : n < 16) :
    hexVal (hexDigitLower n) = some n := by
  simp only [hexVal, hexDigitLower]
  split_ifs <;> (congr 1; omega)

/-- Every character `qtToHex` emits is a lowercase hex digit. -/
theorem qtToHex_chars (B : List Nat) (hB : ∀ b ∈ B, b < 256) :
    ∀ c ∈ qtToHex B, (48 ≤ c ∧ c ≤ 57) ∨ (97 ≤ c ∧ c ≤ 102) := by
  induction B with
  | nil => intro c hc; simp [qtToHex] at hc
  | cons b t ih =>
    intro c hc
    have hb := hB b (List.mem_cons_self b t)
    simp only [qtToHex, List.mem_cons] at hc
    rcases hc with rfl | rfl | hc
    · exact hexDigitLower_range _ (by omega)
    · exact hexDigitLower_range _ (by omega)
    · exact ih (fun x hx => hB x (List.mem_cons_of_mem b hx)) c hc

/-- `qtToHex` emits two digits per byte. -/
theorem qtToHex_length (B : List Nat) : (qtToHex B).length = 2 * B.length := by
  induction B with
  | nil => rfl
  | cons b t ih =>
    simp only [qtToHex, List.length_cons, ih]
    omega

/-- Uppercasing then lowercasing is the identity on lowercase hex
text. -/
theorem asciiLower_upper_of_hexLower (s : List Nat)
    (h : ∀ c ∈ s, (48 ≤ c ∧ c ≤ 57) ∨ (97 ≤ c ∧ c ≤ 102)) :
    asciiToLower (asciiToUpper s) = s := by
  induction s with
  | nil => rfl
  | cons c t ih =>
    have hc := h c (List.mem_cons_self c t)
    have ht := ih (fun x hx => h x (List.mem_cons_of_mem c hx))
    simp only [asciiToUpper, asciiToLower, List.map_cons] at ht ⊢
    rw [ht]
    congr 1
    rcases hc with ⟨h1, h2⟩ | ⟨h1, h2⟩ <;> split_ifs <;> omega

/-- Decoding the digit pairs of `qtToHex` recovers the bytes. -/
theorem qtFromHex_digits (B : List Nat) (hB : ∀ b ∈ B, b < 256) :
    ((qtToHex B).filterMap hexVal).length = 2 * B.length ∧
    pairHex ((qtToHex B).filterMap hexVal) = B := by
  induction B with
  | nil => exact ⟨rfl, rfl⟩
  | cons b t ih =>
    have hb := hB b (List.mem_cons_self b t)
    obtain ⟨ihl, ihp⟩ := ih (fun x hx => hB x (List.mem_cons_of_mem b hx))
    have h1 : hexVal (hexDigitLower (b / 16)) = some (b / 16) :=
      hexVal_hexDigitLower _ (by omega)
    have h2 : hexVal (hexDigitLower (b % 16)) = some (b % 16) :=
      hexVal_hexDigitLower _ (by omega)
    simp only [qtToHex, List.filterMap_cons, h1, h2]
    refine ⟨?_, ?_⟩
    · simp only [List.length_cons, ihl]
      omega
    · simp only [pairHex, ihp]
      rw [show 16 * (b / 16) + b % 16 = b by omega]

/-- `QByteArray::fromHex` inverts `QByteArray::toHex`. -/
theorem qtFromHex_qtToHex (B : List Nat) (hB : ∀ b ∈ B, b < 256) :
    qtFromHex (qtToHex B) = B := by
  obtain ⟨hl, hp⟩ := qtFromHex_digits B hB
  simp only [qtFromHex]
  rw [if_neg (by rw [hl]; omega)]
  exact hp

/-- Lowering an uppercased text is the same as lowering it
directly. -/
theorem asciiToLower_asciiToUpper (s : List Nat) :
    asciiToLower (asciiToUpper s) = asciiToLower s := by
  induction s with
  | nil => rfl
  | cons c t ih =>
    simp only [asciiToUpper, asciiToLower, List.map_cons] at ih ⊢
    rw [ih]
    congr 1
    split_ifs <;> omega

/-- `filterMap` ignores elements the function rejects. -/
theorem filterMap_filter_isSome {α β : Type} (f : α → Option β) (l : List α) :
    l.filterMap f = (l.filter (fun a => (f a).isSome)).filterMap f := by
  induction l with
  | nil => rfl
  | cons a t ih =>
    by_cases h : (f a).isSome = true
    · obtain ⟨b, hb⟩ := Option.isSome_iff_exists.mp h
      rw [List.filterMap_cons, List.filter_cons, if_pos h, List.filterMap_cons, hb, ih]
    · have hnone : f a = none := Option.not_isSome_iff_eq_none.mp h
      rw [List.filterMap_cons, List.filter_cons, if_neg h, hnone, ih]

/-! ## Claim theorems -/

/-- C1 (counterexample): at the frame limit `M = 4` the claim fails:
for the two-code-point text U+1F600 U+1F600 the splitting loop makes
no progress, emits only empty chunks and never terminates, so the
concatenation of the decoded chunks cannot reproduce the text. -/
theorem sendMessage_reassemble_fails_at_M4 :
    (sendMessage (Utf8.encode [128512, 128512]) 4).2 = false ∧
    List.mapM Utf8.decode (sendMessage (Utf8.encode [128512, 128512]) 4).1
      = some (List.replicate 9 []) ∧
    (List.replicate 9 ([] : List Nat)).flatten ≠ [128512, 128512] := by decide

/-- C1 (amended): for every text `T` and frame limit `M ≥ 5`,
`sendMessage` terminates and concatenating the decoded text of every
chunk it produces, in order, reproduces `T` exactly. -/
theorem sendMessage_reassembles (cs : List Nat) (M : Nat)
    (hv : Utf8.ValidText cs) (hM : 5 ≤ M) :
    ∃ css : List (List Nat),
      List.mapM Utf8.decode (sendMessage (Utf8.encode cs) M).1 = some css ∧
      css.flatten = cs ∧ (sendMessage (Utf8.encode cs) M).2 = true := by
  obtain ⟨css, h1, h2, h3⟩ := sendMessageAux_spec M hM ((Utf8.encode cs).length + 1)
    [] cs (by simpa using hv) (by omega)
  have hmain : sendMessage (Utf8.encode cs) M = (css.map Utf8.encode, true) := h1
  refine ⟨css, ?_, h2, by rw [hmain]⟩
  rw [hmain]
  exact Utf8.mapM_decode_map_encode css
    (fun m hm x hx => hv x (by rw [← h2]; exact List.mem_flatten.mpr ⟨m, hm, hx⟩))

/-- C1 witness: the amended claim at T = "hello!" and M = 5. -/
theorem sendMessage_reassembles_witness :
    ∃ css : List (List Nat),
      List.mapM Utf8.decode
          (sendMessage (Utf8.encode [104, 101, 108, 108, 111, 33]) 5).1 = some css ∧
      css.flatten = [104, 101, 108, 108, 111, 33] ∧
      (sendMessage (Utf8.encode [104, 101, 108, 108, 111, 33]) 5).2 = true :=
  sendMessage_reassembles [104, 101, 108, 108, 111, 33] 5 (by decide) (by decide)

/-- C2: for every text and every frame limit `M ≥ 4`, every chunk the
chunker emits — with any fuel, so including the non-terminating
`M = 4` runs — is at most `M` bytes and is well-formed UTF-8 on its
own (no chunk boundary falls inside a multi-byte code point), so
decoding each chunk independently never fails. -/
theorem sendMessage_chunk_safe (cs : List Nat) (M : Nat)
    (hv : Utf8.ValidText cs) (hM : 4 ≤ M) :
    (∀ fuel : Nat, ∀ ch ∈ (sendMessageAux (Utf8.encode cs) M fuel 0).1,
      ch.length ≤ M ∧ (Utf8.decode ch).isSome = true) ∧
    (∀ ch ∈ (sendMessage (Utf8.encode cs) M).1,
      ch.length ≤ M ∧ (Utf8.decode ch).isSome = true) := by
  have hall : ∀ fuel : Nat, ∀ ch ∈ (sendMessageAux (Utf8.encode cs) M fuel 0).1,
      ch.length ≤ M ∧ (Utf8.decode ch).isSome = true := by
    intro fuel ch hch
    obtain ⟨⟨mm, hcheq, hmmv⟩, hle⟩ :=
      sendMessageAux_chunks M hM fuel [] cs (by simpa using hv) ch hch
    subst hcheq
    exact ⟨hle, by rw [Utf8.decode_encode mm hmmv]; rfl⟩
  exact ⟨hall, fun ch hch => hall ((Utf8.encode cs).length + 1) ch hch⟩

/-- C2 witness: at T = "hello" and M = 4 the first emitted chunk is
"hel": 3 bytes and decodable. -/
theorem sendMessage_chunk_safe_witness :
    ([104, 101, 108] : List Nat).length ≤ 4 ∧
    (Utf8.decode [104, 101, 108]).isSome = true :=
  (sendMessage_chunk_safe [104, 101, 108, 108, 111] 4 (by decide) (by decide)).2
    [104, 101, 108] (by decide)

/-- C3: when the chunker must cut and a preferred break character
(single byte, from " .,-") sits in the bounded `M/4` backward search
window strictly after the current offset, the chosen cut point is
immediately after such a character (the byte before the cut is a
break character at or above the given one), the separator staying
with the preceding chunk, and the cut stays within `(off, off+M]`. -/
theorem stepSplit_prefers_break (b : List Nat) (M off j : Nat)
    (hwlo : (M : Int) + (off : Int) - 1 - ((M / 4 : Nat) : Int) < (j : Int))
    (hwhi : (j : Int) ≤ lastCodepointStart b ((M : Int) + (off : Int) - 1))
    (hoff : off < j)
    (hsc : isSplitChar (byteAt b (j : Int)) = true) :
    isSplitChar (byteAt b (stepSplit b M off - 1)) = true ∧
    (j : Int) ≤ stepSplit b M off - 1 ∧
    stepSplit b M off - 1 ≤ lastCodepointStart b ((M : Int) + (off : Int) - 1) ∧
    ((off : Int) < stepSplit b M off ∧ stepSplit b M off ≤ (M : Int) + (off : Int)) := by
  simp only [lastCodepointStart] at hwhi ⊢
  obtain ⟨j', hs1, hs2, hs3, hs4⟩ := splitSearchAux_found b
    ((lastCodepointStartAux b 4 ((M : Int) + (off : Int) - 1)
      - ((M : Int) + (off : Int) - 1 - ((M / 4 : Nat) : Int))).toNat)
    (lastCodepointStartAux b 4 ((M : Int) + (off : Int) - 1)) (j : Int)
    (by omega) hwhi hsc
  have hlcs_le : lastCodepointStartAux b 4 ((M : Int) + (off : Int) - 1)
      ≤ (M : Int) + (off : Int) - 1 := by
    rcases lastCodepointStartAux_cases b 4 ((M : Int) + (off : Int) - 1)
      with h | ⟨h1, h2, h3⟩
    · rw [h]
      omega
    · exact h2
  have hstep : stepSplit b M off = j' + 1 := by
    simp only [stepSplit, lastCodepointStart]
    rw [hs1, if_neg (by push_neg; constructor <;> omega)]
  rw [hstep]
  exact ⟨by simpa using hs4, by omega, by omega, by omega, by omega⟩

/-- C3 witness: the spec's literal example, T = "The quick brown fox
jumps over the lazy dog again" with M = 20 and offset 0: the break
character at position 19 (a space) is found, so the first cut is at
20, right after a space at or before position 20 — not mid-word. -/
theorem stepSplit_prefers_break_witness :
    isSplitChar (byteAt foxBytes (stepSplit foxBytes 20 0 - 1)) = true ∧
    ((19 : Nat) : Int) ≤ stepSplit foxBytes 20 0 - 1 ∧
    stepSplit foxBytes 20 0 - 1
      ≤ lastCodepointStart foxBytes ((20 : Nat) + ((0 : Nat) : Int) - 1) ∧
    (((0 : Nat) : Int) < stepSplit foxBytes 20 0 ∧
      stepSplit foxBytes 20 0 ≤ ((20 : Nat) : Int) + ((0 : Nat) : Int)) :=
  stepSplit_prefers_break foxBytes 20 0 19 (by decide) (by decide) (by decide)
    (by decide)

/-- C4 (counterexample): the empty text has byte length 0 ≤ M yet
produces zero chunks, not exactly one. -/
theorem sendMessage_empty_no_chunk :
    sendMessage (Utf8.encode []) 20 = ([], true) ∧
    (sendMessage (Utf8.encode []) 20).1.length = 0 := by decide

/-- C4 (amended): every nonempty text whose UTF-8 byte length is at
most `M` is sent as exactly one chunk, equal to the whole text. -/
theorem sendMessage_single_chunk (cs : List Nat) (M : Nat)
    (hv : Utf8.ValidText cs) (hne : cs ≠ []) (hle : (Utf8.encode cs).length ≤ M) :
    sendMessage (Utf8.encode cs) M = ([Utf8.encode cs], true) ∧
    Utf8.decode (Utf8.encode cs) = some cs := by
  have hpos : 0 < (Utf8.encode cs).length := by
    rcases Nat.eq_zero_or_pos (Utf8.encode cs).length with h0 | h1
    · exact absurd ((Utf8.encode_eq_nil_iff cs).mp (List.length_eq_zero.mp h0)) hne
    · exact h1
  constructor
  · show sendMessageAux (Utf8.encode cs) M ((Utf8.encode cs).length + 1) 0 = _
    simp only [sendMessageAux]
    rw [if_neg (by omega), if_pos hpos, List.drop_zero]
  · exact Utf8.decode_encode cs hv

/-- C4 witness: the amended claim at T = "hi", M = 20. -/
theorem sendMessage_single_chunk_witness :
    sendMessage (Utf8.encode [104, 105]) 20 = ([Utf8.encode [104, 105]], true) ∧
    Utf8.decode (Utf8.encode [104, 105]) = some [104, 105] :=
  sendMessage_single_chunk [104, 105] 20 (by decide) (by decide) (by decide)

/-- C5 (counterexample): at `M = 4`, for the text U+1F600 U+1F600 the
chosen cut point equals the current offset (0), not strictly greater,
and the loop does not terminate (the fuelled run never completes). -/
theorem stepSplit_no_progress_at_M4 :
    stepSplit (Utf8.encode [128512, 128512]) 4 0 = 0 ∧
    (sendMessage (Utf8.encode [128512, 128512]) 4).2 = false := by decide

/-- C5 (amended): for every text and frame limit `M ≥ 5` the
splitting loop terminates, and every iteration's chosen cut point is
strictly greater than the current offset. -/
theorem sendMessage_terminates (cs : List Nat) (M : Nat)
    (hv : Utf8.ValidText cs) (hM : 5 ≤ M) :
    (sendMessage (Utf8.encode cs) M).2 = true ∧
    ∀ l r : List Nat, cs = l ++ r → M < (Utf8.encode r).length →
      ((Utf8.encode l).length : Int)
        < stepSplit (Utf8.encode cs) M (Utf8.encode l).length := by
  constructor
  · obtain ⟨css, h1, h2, h3⟩ := sendMessageAux_spec M hM ((Utf8.encode cs).length + 1)
      [] cs (by simpa using hv) (by omega)
    show (sendMessageAux (Utf8.encode cs) M ((Utf8.encode cs).length + 1) 0).2 = true
    rw [show sendMessageAux (Utf8.encode cs) M ((Utf8.encode cs).length + 1) 0
        = (css.map Utf8.encode, true) from h1]
  · intro l r hsplit hlen
    subst hsplit
    obtain ⟨m, r', hm, hstep, hle, hne⟩ := stepSplit_spec M (by omega) l r hv hlen
    rw [hstep]
    have hmne : m ≠ [] := hne hM
    have h1 : 1 ≤ (Utf8.encode m).length := by
      rcases Nat.eq_zero_or_pos (Utf8.encode m).length with h0 | hp
      · exact absurd ((Utf8.encode_eq_nil_iff m).mp (List.length_eq_zero.mp h0)) hmne
      · exact hp
    omega

/-- C5 witness: the amended claim at T = "abcdef", M = 5, first
iteration (offset 0). -/
theorem sendMessage_terminates_witness :
    (sendMessage (Utf8.encode [97, 98, 99, 100, 101, 102]) 5).2 = true ∧
    ((Utf8.encode ([] : List Nat)).length : Int)
      < stepSplit (Utf8.encode [97, 98, 99, 100, 101, 102]) 5
          (Utf8.encode ([] : List Nat)).length :=
  ⟨(sendMessage_terminates [97, 98, 99, 100, 101, 102] 5 (by decide) (by decide)).1,
   (sendMessage_terminates [97, 98, 99, 100, 101, 102] 5 (by decide) (by decide)).2
     [] [97, 98, 99, 100, 101, 102] rfl (by decide)⟩

/-- C6: for every byte sequence `B` of the peer id's fixed length
(32), decoding the hex encoding of `B` returns `B` exactly, and the
encoding is uppercase hexadecimal of exactly twice the byte
length. -/
theorem cdata_hex_round_trip (B : List Nat) (_hlen : B.length = TOX_CLIENT_ID_SIZE)
    (hB : ∀ b ∈ B, b < 256) :
    CData.fromString (CData.toString B) = B ∧
    (CData.toString B).length = 2 * B.length ∧
    ∀ c ∈ CData.toString B, (48 ≤ c ∧ c ≤ 57) ∨ (65 ≤ c ∧ c ≤ 70) := by
  refine ⟨?_, ?_, ?_⟩
  · simp only [CData.fromString, CData.toString]
    rw [asciiLower_upper_of_hexLower (qtToHex B) (qtToHex_chars B hB)]
    exact qtFromHex_qtToHex B hB
  · simp only [CData.toString, asciiToUpper, List.length_map]
    exact qtToHex_length B
  · intro c hc
    simp only [CData.toString, asciiToUpper, List.mem_map] at hc
    obtain ⟨d, hd, rfl⟩ := hc
    rcases qtToHex_chars B hB d hd with ⟨h1, h2⟩ | ⟨h1, h2⟩ <;> split_ifs <;> omega

/-- C6 witness: the round trip on the 32-byte sequence of 0xAB
bytes. -/
theorem cdata_hex_round_trip_witness :
    CData.fromString (CData.toString (List.replicate 32 171))
        = List.replicate 32 171 ∧
    (CData.toString (List.replicate 32 171)).length
        = 2 * (List.replicate 32 171).length ∧
    ∀ c ∈ CData.toString (List.replicate 32 171),
      (48 ≤ c ∧ c ≤ 57) ∨ (65 ≤ c ∧ c ≤ 70) :=
  cdata_hex_round_trip (List.replicate 32 171) (by decide) (by decide)

/-- C7 (counterexample): `fromString` does not fail on the input
"GG11", which contains non-hex characters and decodes to a single
byte instead of the expected 32: it silently returns `[0x11]`. -/
theorem fromString_accepts_invalid :
    CData.fromString [71, 71, 49, 49] = [17] ∧
    [(17 : Nat)].length ≠ TOX_CLIENT_ID_SIZE := by decide

/-- C7 (amended): `fromString` never fails: it is case-insensitive
(uppercasing the input does not change the result) and simply skips
every non-hexadecimal character, decoding whatever digits remain,
regardless of the expected byte length. -/
theorem fromString_total_behavior :
    (∀ s : List Nat, CData.fromString (asciiToUpper s) = CData.fromString s) ∧
    (∀ s : List Nat, qtFromHex s
        = qtFromHex (s.filter (fun c => (hexVal c).isSome))) := by
  constructor
  · intro s
    simp only [CData.fromString]
    rw [asciiToLower_asciiToUpper]
  · intro s
    simp only [qtFromHex]
    rw [← filterMap_filter_isSome]

/-- C8: the connectivity check is edge-triggered: from prior state
"not connected", the sample sequence [online, online, offline,
offline, online] emits exactly [connected, disconnected, connected];
in general one event per state change and none on repeats, the
remembered bit always tracking the sample. -/
theorem checkConnection_edge_triggered :
    runConnChecks [true, true, false, false, true] false
      = [ConnEvent.connected, ConnEvent.disconnected, ConnEvent.connected] ∧
    (∀ online st : Bool, (checkConnection online st).1
        = if online = st then []
          else [if online then ConnEvent.connected else ConnEvent.disconnected]) ∧
    (∀ online st : Bool, (checkConnection online st).2 = online) := by decide

/-- C9: the per-friend sync events always appear in the relative
order added, name, status message, last-seen; the last-seen event is
emitted exactly when the friend is readable and the engine knows a
nonzero last-online time; in particular a friend with a name and a
status message but no known last-seen yields added, name, status in
that order with no last-seen event. -/
theorem friendSyncEvents_ordered (f : FriendSnapshot) :
    (friendSyncEvents f).Sublist
      [SyncEvent.friendAdded, SyncEvent.usernameLoaded,
        SyncEvent.statusMessageLoaded, SyncEvent.lastSeenChanged] ∧
    (SyncEvent.lastSeenChanged ∈ friendSyncEvents f
      ↔ f.clientIdOk = true ∧ 0 < f.lastOnline) ∧
    friendSyncEvents ⟨true, 1, 1, 1, 1, 0⟩
      = [SyncEvent.friendAdded, SyncEvent.usernameLoaded,
          SyncEvent.statusMessageLoaded] := by
  obtain ⟨cid, ns, nr, ss, sr, lo⟩ := f
  refine ⟨?_, ?_, by decide⟩
  · simp only [friendSyncEvents, checkLastOnline]
    split_ifs <;> decide
  · simp only [friendSyncEvents, checkLastOnline]
    split_ifs <;> simp_all

/-- C10: every engine user-status value other than the three
recognized states (none/available, away, busy) is mapped to the
Online presence by the user-status handler, not rejected or
dropped. -/
theorem onUserStatusChanged_unknown_online (u : Nat)
    (h0 : u ≠ TOX_USERSTATUS_NONE) (h1 : u ≠ TOX_USERSTATUS_AWAY)
    (h2 : u ≠ TOX_USERSTATUS_BUSY) :
    onUserStatusChanged u = Status.Online := by
  simp only [onUserStatusChanged]
  rw [if_neg h0, if_neg h1, if_neg h2]

/-- C10 witness: the unknown user-status code 7 maps to Online. -/
theorem onUserStatusChanged_unknown_online_witness :
    onUserStatusChanged 7 = Status.Online :=
  onUserStatusChanged_unknown_online 7 (by decide) (by decide) (by decide)

end ToxCore
